import Mathlib

/-!
Verification development for the ClusterDistribute repository.

The repository consists of `distribute.py` (template-driven job-script
generation: placeholder resolution, sample-list partitioning, script
materialization) and `src/reprocess.py` (failure reconciliation over job
logs, sample-subset files and completed-output files), plus two trivial
submission shims that only shell out.

This file shallowly embeds the relevant Python functions as executable
Lean definitions (strings as `String`, Python `dict` as an ordered
association list, file contents as strings, the file system as an
environment record) and proves the specification claims about them.

Conventions for the embedding of Python string operations:
the Python single-character `str.split` family is modelled character by
character (`pySplitChars`), `str.strip` over ASCII whitespace
(`pystrip`), `str.splitlines` for the newline-only contents produced and
consumed here (`pylines`), and `str.format` restricted to plain
placeholder substitution (`pyformat`), which is the only form the
templates in this program use (discovered with a regular expression that
captures a shortest non-newline run between an opening and a closing
curly brace).
-/

namespace ClusterDistribute

/-- Python whitespace characters recognised by `str.strip` (ASCII part,
which is all that arises in this program's data). -/
def isPySpace (c : Char) : Bool :=
  c = ' ' || c = '\t' || c = '\n' || c = '\r' || c = '\x0b' || c = '\x0c'

/-- Python `s.strip()`: drop leading and trailing whitespace. -/
def pystrip (s : String) : String :=
  String.mk (((s.data.dropWhile isPySpace).reverse.dropWhile isPySpace).reverse)

/-- Python `s.split(sep)` for a single-character separator, at the level
of character lists. `"".split(sep) = [""]`, separators are not collapsed. -/
def pySplitChars (sep : Char) : List Char → List (List Char)
  | [] => [[]]
  | c :: cs =>
    if c = sep then [] :: pySplitChars sep cs
    else
      match pySplitChars sep cs with
      | [] => [[c]]
      | t :: ts => (c :: t) :: ts

/-- Python `s.split(sep)` for a single-character separator. -/
def pySplit (s : String) (sep : Char) : List String :=
  (pySplitChars sep s.data).map String.mk

/-- Python `s.split(sep, maxsplit=1)` for a single-character separator:
at most one split, at the first occurrence. -/
def pySplit1 (sep : Char) (s : String) : List String :=
  if sep ∈ s.data then
    [String.mk (s.data.takeWhile (· ≠ sep)),
     String.mk ((s.data.dropWhile (· ≠ sep)).tail)]
  else [s]

/-- Python `stem.split("_")[-1]`: the token after the last underscore
(the whole stem when it has no underscore).  `split` never returns an
empty list, so the default is never used. -/
def lastTok (s : String) : String := (pySplit s '_').getLastD ""

/-- Python `stem.split("_")[0]`: the token before the first underscore
(the whole stem when it has no underscore). -/
def firstTok (s : String) : String := (pySplit s '_').headD ""

/-- Python `sep.join` for a single-character separator, at the level of
character lists. -/
def sepJoin (sep : Char) : List (List Char) → List Char
  | [] => []
  | [x] => x
  | x :: xs => x ++ sep :: sepJoin sep xs

/-- Python `"\n".join(l)`. -/
def pyJoinNL (l : List String) : String :=
  String.mk (sepJoin '\n' (l.map String.data))

/-- Python `s.splitlines()` for contents whose only line separator is
`"\n"` (the only separator this program ever writes or reads): split on
newlines, dropping the empty trailing piece produced by a final newline. -/
def pylines (s : String) : List String :=
  let l := (pySplitChars '\n' s.data).map String.mk
  if l.getLastD "" = "" then l.dropLast else l

/-- Python `os.path.join(a, b)` for POSIX paths. -/
def ospJoin (a b : String) : String :=
  if b.data.headD ' ' = '/' then b
  else if a = "" then b
  else if a.data.getLastD ' ' = '/' then a ++ b
  else a ++ "/" ++ b

/-- Python `os.path.basename(p)` for POSIX paths: the part after the
last slash. -/
def ospBasename (s : String) : String :=
  String.mk ((s.data.reverse.takeWhile (· ≠ '/')).reverse)

/-- Python `os.path.splitext(b)` on a basename: split at the last dot,
except that leading dots never start an extension. -/
def ospSplitext (s : String) : String × String :=
  let lead := s.data.takeWhile (· = '.')
  let rest := s.data.dropWhile (· = '.')
  if '.' ∈ rest then
    (String.mk (lead ++ ((rest.reverse.dropWhile (· ≠ '.')).tail).reverse),
     String.mk ('.' :: (rest.reverse.takeWhile (· ≠ '.')).reverse))
  else (s, "")

/-!  `distribute.py`: the partitioner `split`. -/

/-- `split(items, partitions)` from `distribute.py`: when
`partitions > 0`, append `items[i : i+partitions]` for
`i in range(0, len(items), partitions)` (the range has
`ceil(len / partitions)` indices `0, p, 2p, ...`, written here as the
image of `List.range`); otherwise the empty list. -/
def split {α : Type} (items : List α) (partitions : Int) : List (List α) :=
  if 0 < partitions then
    (List.range ((items.length + partitions.toNat - 1) / partitions.toNat)).map
      (fun i => (items.drop (i * partitions.toNat)).take partitions.toNat)
  else []

/-- Recursive presentation of the chunking loop: chunks of size `n + 1`.
Used only in proofs; `split` itself is the literal translation. -/
def splitAux (n : Nat) : List α → List (List α)
  | [] => []
  | a :: l => (a :: l.take n) :: splitAux n (l.drop n)
termination_by l => l.length
decreasing_by
  simp only [List.length_drop, List.length_cons]
  omega

theorem splitAux_nil (n : Nat) : splitAux n ([] : List α) = [] := by
  rw [splitAux]

theorem splitAux_cons (n : Nat) (a : α) (l : List α) :
    splitAux n (a :: l) = (a :: l.take n) :: splitAux n (l.drop n) := by
  rw [splitAux]

theorem splitAux_eq_nil_iff (n : Nat) (l : List α) :
    splitAux n l = [] ↔ l = [] := by
  cases l with
  | nil => simp [splitAux_nil]
  | cons a t => rw [splitAux_cons]; simp

theorem splitAux_ne_nil (n : Nat) (l : List α) (h : l ≠ []) :
    splitAux n l ≠ [] :=
  fun hc => h ((splitAux_eq_nil_iff n l).mp hc)

/-- The range-indexed chunking of `split` agrees with the recursive
presentation `splitAux`. -/
theorem rangeChunks_eq_splitAux (n : Nat) (l : List α) :
    (List.range ((l.length + n) / (n + 1))).map
      (fun i => (l.drop (i * (n + 1))).take (n + 1)) = splitAux n l := by
  generalize hk : l.length = k
  induction k using Nat.strong_induction_on generalizing l with
  | _ k ih =>
    cases l with
    | nil =>
      subst hk
      rw [splitAux_nil]
      simp only [List.length_nil, Nat.zero_add, Nat.div_eq_of_lt (Nat.lt_succ_self n)]
      simp
    | cons a t =>
      subst hk
      rw [splitAux_cons]
      have hcount : ((a :: t).length + n) / (n + 1) = t.length / (n + 1) + 1 := by
        have h0 : (a :: t).length + n = t.length + (n + 1) := by
          simp only [List.length_cons]; omega
        rw [h0, Nat.add_div_right _ (Nat.succ_pos n)]
      rw [hcount, List.range_succ_eq_map, List.map_cons, List.map_map]
      have hhead : (((a :: t).drop (0 * (n + 1))).take (n + 1)) = a :: t.take n := by
        simp [List.take_succ_cons]
      rw [hhead]
      have hfun : ∀ i ∈ List.range (t.length / (n + 1)),
          ((fun i => ((a :: t).drop (i * (n + 1))).take (n + 1)) ∘ Nat.succ) i =
          (((t.drop n).drop (i * (n + 1))).take (n + 1)) := by
        intro i _
        simp only [Function.comp_apply, Nat.succ_eq_add_one]
        have h1 : (i + 1) * (n + 1) = (i * (n + 1) + n) + 1 := by ring
        rw [h1, List.drop_succ_cons, List.drop_drop]
        have h2 : i * (n + 1) + n = n + i * (n + 1) := by ring
        rw [← h2]
      rw [List.map_congr_left hfun]
      have hcount2 : t.length / (n + 1) = ((t.drop n).length + n) / (n + 1) := by
        rcases le_or_lt n t.length with h | h
        · rw [List.length_drop, Nat.sub_add_cancel h]
        · rw [List.length_drop, Nat.sub_eq_zero_of_le (Nat.le_of_lt h), Nat.zero_add,
            Nat.div_eq_of_lt (Nat.lt_succ_self n),
            Nat.div_eq_of_lt (Nat.lt_succ_of_lt h)]
      have hlen : (t.drop n).length < (a :: t).length := by
        simp only [List.length_drop, List.length_cons]
        omega
      rw [hcount2, ih ((t.drop n).length) hlen (t.drop n) rfl]

/-- For a positive partition size, `split` is `splitAux` at size
`partitions.toNat`. -/
theorem split_eq_splitAux {α : Type} (items : List α) (p : Int) (hp : 0 < p) :
    split items p = splitAux (p.toNat - 1) items := by
  obtain ⟨m, hm⟩ : ∃ m, p.toNat = m + 1 := ⟨p.toNat - 1, by omega⟩
  rw [split, if_pos hp, hm]
  have h2 : items.length + (m + 1) - 1 = items.length + m := by omega
  rw [h2, rangeChunks_eq_splitAux]
  norm_num

/-- Concatenating the chunks of `splitAux` restores the input list. -/
theorem splitAux_flatten (n : Nat) (l : List α) : (splitAux n l).flatten = l := by
  generalize hk : l.length = k
  induction k using Nat.strong_induction_on generalizing l with
  | _ k ih =>
    cases l with
    | nil => rw [splitAux_nil]; rfl
    | cons a t =>
      subst hk
      rw [splitAux_cons, List.flatten_cons]
      have hlen : (t.drop n).length < (a :: t).length := by
        simp only [List.length_drop, List.length_cons]
        omega
      rw [ih ((t.drop n).length) hlen (t.drop n) rfl]
      simp [List.take_append_drop]

/-- Every chunk of `splitAux` except possibly the last has exactly
`n + 1` elements. -/
theorem splitAux_dropLast_length (n : Nat) (l : List α) :
    ∀ c ∈ (splitAux n l).dropLast, c.length = n + 1 := by
  generalize hk : l.length = k
  induction k using Nat.strong_induction_on generalizing l with
  | _ k ih =>
    cases l with
    | nil => rw [splitAux_nil]; intro c hc; simp at hc
    | cons a t =>
      subst hk
      rw [splitAux_cons]
      by_cases hd : t.drop n = []
      · rw [hd, splitAux_nil]
        intro c hc; simp at hc
      · intro c hc
        rw [List.dropLast_cons_of_ne_nil (splitAux_ne_nil n _ hd)] at hc
        rcases List.mem_cons.mp hc with h | h
        · subst h
          have hn : n ≤ t.length := by
            by_contra hcon
            exact hd (List.drop_eq_nil_of_le (Nat.le_of_lt (Nat.lt_of_not_le hcon)))
          simp [List.length_take, Nat.min_eq_left hn]
        · have hlen : (t.drop n).length < (a :: t).length := by
            simp only [List.length_drop, List.length_cons]
            omega
          exact ih ((t.drop n).length) hlen (t.drop n) rfl c h

/-- The last chunk of `splitAux` on a non-empty list has between 1 and
`n + 1` elements. -/
theorem splitAux_getLast_length (n : Nat) (l : List α) (hl : l ≠ []) :
    1 ≤ ((splitAux n l).getLastD []).length ∧
    ((splitAux n l).getLastD []).length ≤ n + 1 := by
  generalize hk : l.length = k
  induction k using Nat.strong_induction_on generalizing l with
  | _ k ih =>
    cases l with
    | nil => exact absurd rfl hl
    | cons a t =>
      subst hk
      rw [splitAux_cons]
      by_cases hd : t.drop n = []
      · rw [hd, splitAux_nil]
        have hone : ([a :: t.take n] : List (List α)).getLastD [] = a :: t.take n := rfl
        rw [hone]
        refine ⟨by simp, ?_⟩
        simp only [List.length_cons, List.length_take]
        omega
      · have hne := splitAux_ne_nil n (t.drop n) hd
        cases hsp : splitAux n (t.drop n) with
        | nil => exact absurd hsp hne
        | cons c cs =>
          have hlen : (t.drop n).length < (a :: t).length := by
            simp only [List.length_drop, List.length_cons]
            omega
          have hih := ih ((t.drop n).length) hlen (t.drop n) hd rfl
          rw [hsp] at hih
          simp only [List.getLastD_cons] at hih ⊢
          exact hih

/-!  Python `dict` with string keys, as an insertion-ordered association
list: assignment `d[k] = v` overwrites in place when the key is present
and appends otherwise, exactly like a Python `dict`. -/

/-- A Python `dict` from parameter names to values. -/
abbrev Dict := List (String × String)

/-- Python `d[k] = v`. -/
def dictInsert (d : Dict) (k v : String) : Dict :=
  if d.any (fun p => p.1 = k) then
    d.map (fun p => if p.1 = k then (k, v) else p)
  else d ++ [(k, v)]

/-- Python `d[k]` (`None` when absent; the program only looks keys up
through `str.format`, which fails on an absent key). -/
def dlookup (d : Dict) (k : String) : Option String :=
  (d.find? (fun p => p.1 = k)).map Prod.snd

/-- The key set of a dict. -/
def keysOf (d : Dict) : Finset String := (d.map Prod.fst).toFinset

/-!  `distribute.py`: `parse_parameters_file` and the
`ParametersException` data. -/

/-- One line of a parameter file:
`p, v = [item.strip() for item in line.split(":", maxsplit=1)]`.
A line without a colon yields a single-element list, so unpacking raises
`ValueError`; that is the `none` case. -/
def parseLine (line : String) : Option (String × String) :=
  match (pySplit1 ':' line).map pystrip with
  | [p, v] => some (p, v)
  | _ => none

/-- The line-reading loop of `parse_parameters_file`, building
`file_params` one line at a time. -/
def parseLinesAux (acc : Dict) : List String → Option Dict
  | [] => some acc
  | line :: rest =>
    match parseLine line with
    | none => none
    | some (p, v) => parseLinesAux (dictInsert acc p v) rest

/-- All lines of a parameter file parsed into `file_params`. -/
def parseLines (lines : List String) : Option Dict := parseLinesAux [] lines

/-- The literal set `{'job_id', 'samples_fp'}` from `distribute.py`. -/
def reservedNames : Finset String := {"job_id", "samples_fp"}

/-- Message attached to a `ParametersException` holding the given
enumeration of the missing parameters (Python iterates the `missing`
set in an unspecified order). -/
def parametersExceptionMessage (missing_params : List String) : String :=
  "ERROR. No values found for the following parameters:\n" ++
  pyJoinNL (missing_params.map (fun p => "  " ++ p))

/-- Outcome of `parse_parameters_file`: a `ValueError` from a line
without a colon, a `ParametersException` carrying the `missing` set, or
the parsed `file_params` dict. -/
inductive ParseResult where
  | valueError : ParseResult
  | paramsMissing (missing : Finset String) : ParseResult
  | ok (file_params : Dict) : ParseResult
deriving DecidableEq

/-- `parse_parameters_file(path, params)` from `distribute.py`, with the
file given by its lines.  `missing = params.difference(file_params)`;
the exception is raised when `missing.difference({'job_id',
'samples_fp'})` is non-empty, and it carries `missing` itself. -/
def parse_parameters_file (lines : List String) (params : Finset String) : ParseResult :=
  match parseLines lines with
  | none => ParseResult.valueError
  | some file_params =>
    let missing := params \ keysOf file_params
    if (missing \ reservedNames).Nonempty then ParseResult.paramsMissing missing
    else ParseResult.ok file_params

/-- `input_params(params)` from `distribute.py`: one `input()` per
non-reserved discovered placeholder.  Python iterates the placeholder
set in an unspecified order; the resulting dict's lookups and key set do
not depend on that order, and the order never reaches an output file. -/
def input_params (params : List String) (userInput : String → String) : Dict :=
  (params.filter (fun p => ¬(p = "samples_fp" ∨ p = "job_id"))).map
    (fun p => (p, userInput p))

/-- Placeholder discovery `re.findall` over the template text: every
shortest run of non-newline characters between an opening and a closing
curly brace, scanning left to right.  The scanner state is `none`
outside a candidate match and `some acc` (characters read so far,
reversed) after an unmatched opening brace. -/
def findPhAux : List Char → Option (List Char) → List String
  | [], _ => []
  | c :: cs, none =>
    if c = '{' then findPhAux cs (some [])
    else findPhAux cs none
  | c :: cs, some acc =>
    if c = '}' then String.mk acc.reverse :: findPhAux cs none
    else if c = '\n' then findPhAux cs none
    else findPhAux cs (some (c :: acc))

/-- All placeholder names found in a template text, in scan order with
duplicates (the caller takes the set). -/
def findPlaceholders (template : String) : List String :=
  findPhAux template.data none

/-!  `src/reprocess.py`: failure reconciliation.  A file is modelled by
its filename stem and its content; glob results are modelled as the list
of matched files.  The failure marker is an arbitrary predicate on the
log text, standing for `re.search(fail_str, text)`. -/

/-- A file as the reconciler sees it: filename stem plus content. -/
structure PFile where
  stem : String
  content : String
deriving DecidableEq

/-- `parse_log_files(log_files, fail_str)` from `reprocess.py`: the
final-underscore token of the stem of every log whose text matches the
failure marker, in iteration order, duplicates kept (it is a Python
list). -/
def parse_log_files (log_files : List PFile) (failSearch : String → Bool) : List String :=
  (log_files.filter (fun lf => failSearch lf.content)).map (fun lf => lastTok lf.stem)

/-- The `sample_ids` set of `gather_failed_samples`: the union of the
lines of every sample file whose stem's final-underscore token is in
`failed_runs`.  The source sorts the matched files before reading them
(`sorted(...)`, modelled by `mergeSort` on stems); the union is over a
set, so the sort cannot change the result. -/
def sampleIdsOf (sample_files : List PFile) (failed_runs : List String) : Finset String :=
  ((sample_files.filter (fun f => lastTok f.stem ∈ failed_runs)).mergeSort
      (fun a b => a.stem ≤ b.stem)).foldl
    (fun acc f => acc ∪ (pylines f.content).toFinset) ∅

/-- The `completed` set of `gather_failed_samples`: the first-underscore
token of each completed-output file stem, empty when no completed-output
folder/glob is supplied. -/
def completedOf (job_folder : Option (List PFile)) : Finset String :=
  match job_folder with
  | some outs => (outs.map (fun f => firstTok f.stem)).toFinset
  | none => ∅

/-- `gather_failed_samples` from `reprocess.py`:
`sorted(sample_ids - completed)`. -/
def gather_failed_samples (sample_files : List PFile) (failed_runs : List String)
    (job_folder : Option (List PFile)) : List String :=
  (sampleIdsOf sample_files failed_runs \ completedOf job_folder).sort (· ≤ ·)

/-- The reconciliation pipeline of `reprocess.py`'s `main`:
`gather_failed_samples` applied to the runs found by `parse_log_files`. -/
def reconcile (log_files : List PFile) (failSearch : String → Bool)
    (sample_files : List PFile) (job_folder : Option (List PFile)) : List String :=
  gather_failed_samples sample_files (parse_log_files log_files failSearch) job_folder

/-!  `distribute.py`: template substitution and the output loop of
`main`.  `str.format` is modelled in the plain-placeholder fragment the
program's templates use: each placeholder is replaced by the mapping's
value for its name, an absent name is a `KeyError` (`none`), an
unterminated opening brace is an error (`none`).  Format specs,
conversions and doubled-brace escapes do not occur in this program's
templates and are not modelled. -/

/-- Single pass of `template.format(**param_vals)` over the character
list.  The second argument is `none` outside a placeholder and
`some acc` inside one (name characters so far, reversed). -/
def fmtAux (m : String → Option String) : List Char → Option (List Char) → Option (List Char)
  | [], none => some []
  | [], some _ => none
  | c :: cs, none =>
    if c = '{' then fmtAux m cs (some [])
    else (fmtAux m cs none).map (fun r => c :: r)
  | c :: cs, some acc =>
    if c = '}' then
      match m (String.mk acc.reverse) with
      | some v => (fmtAux m cs none).map (fun r => v.data ++ r)
      | none => none
    else fmtAux m cs (some (c :: acc))

/-- `template.format(**param_vals)`, `none` on any formatting error. -/
def pyformat (template : String) (m : String → Option String) : Option String :=
  (fmtAux m template.data none).map String.mk

/-- The two reserved assignments performed per chunk, in source order:
`param_vals["samples_fp"] = samples_fp` then
`param_vals["job_id"] = str(i)`. -/
def extendPV (pv : Dict) (samples_fp : String) (i : Nat) : Dict :=
  dictInsert (dictInsert pv "samples_fp" samples_fp) "job_id" (toString i)

/-- The literal `skip_params = ["samples_fp", "job_id"]`. -/
def skipParams : List String := ["samples_fp", "job_id"]

/-- The `--save_params` write: `"\n".join(f"p: v" pairs, reserved keys
skipped)` followed by a final newline. -/
def saveParams (param_vals : Dict) : String :=
  pyJoinNL ((param_vals.filter (fun p => ¬p.1 ∈ skipParams)).map
    (fun p => p.1 ++ ": " ++ p.2)) ++ "\n"

/-- The output loop of `main`, over `enumerate(sample_groups)` with the
index shifted to start at 1.  Returns the files written (path paired
with final content) and the final `param_vals` dict, or `none` in place
of the dict when `template.format` raised; in that case the job-script
file was already opened for writing and exists empty, and the loop (and
any `--save_params` write) is abandoned.  `split_fps` is
`args.split_sample_ids_fps`: when present (mode b), the sample-subset
file is the caller-supplied path `split_fps[i-1]` and is not written. -/
def jobLoop (output_dir pfx ext template : String) (split_fps : Option (List String)) :
    Nat → Dict → List (List String) → List (String × String) × Option Dict
  | _, pv, [] => ([], some pv)
  | i, pv, group :: rest =>
    let samples_fp :=
      match split_fps with
      | some fps => fps.getD (i - 1) ""
      | none => ospJoin output_dir (pfx ++ "_samples_" ++ toString i ++ ".txt")
    let sampleWrites : List (String × String) :=
      match split_fps with
      | some _ => []
      | none => [(samples_fp, pyJoinNL group ++ "\n")]
    let js_fp := ospJoin output_dir (pfx ++ "_" ++ toString i ++ ext)
    let pv' := extendPV pv samples_fp i
    match pyformat template (dlookup pv') with
    | none => (sampleWrites ++ [(js_fp, "")], none)
    | some txt =>
      let res := jobLoop output_dir pfx ext template split_fps (i + 1) pv' rest
      (sampleWrites ++ (js_fp, txt) :: res.1, res.2)

/-- Normal-mode materialization (claim C5): the output loop with fresh
chunks, no pre-split files, indices from 1, and the prefix derived from
the template filename stem (text before its first underscore). -/
def materialize_normal (output_dir stem ext template : String) (pv : Dict)
    (groups : List (List String)) : List (String × String) × Option Dict :=
  jobLoop output_dir (firstTok stem) ext template none 1 pv groups

/-!  `distribute.py`: `main`, over an abstract environment.  The
environment gives path existence, directory creatability, file contents
and interactive input; the outcome is the list of files written and the
process exit code (0 for success, 1 for the `sys.exit(1)` after path
validation, for `sys.exit(message)` on a `ParametersException`, and for
an uncaught `ValueError`/`KeyError` traceback). -/

/-- The command-line arguments of `distribute.py` after parsing. -/
structure Args where
  job_template : String
  sample_ids_list_fp : Option String
  split_sample_ids_fps : Option (List String)
  partition : Int
  parameters_fp : Option String
  output_dir : String
  save_params : Option String

/-- The file-system and console environment `main` runs against. -/
structure Env where
  pathExists : String → Bool
  mkdirOk : String → Bool
  content : String → String
  userInput : String → String

/-- `verify_path(path, create)` from `distribute.py` (the error prints
are side effects on stderr only). -/
def verify_path (env : Env) (path : String) (create : Bool) : Bool :=
  if env.pathExists path then true
  else if create then env.mkdirOk path
  else false

/-- The outcome of a run of `main`: every file written (with its final
content) and the process exit code. -/
structure MainOut where
  writes : List (String × String)
  exitCode : Nat
deriving DecidableEq

/-- The `path_errs` list accumulated by `main` before `if not
all(path_errs): sys.exit(1)`. -/
def pathErrs (args : Args) (env : Env) : List Bool :=
  [verify_path env args.job_template false] ++
  (match args.sample_ids_list_fp with
   | some fp => [verify_path env fp false]
   | none => []) ++
  (match args.split_sample_ids_fps with
   | some fps => fps.map (fun fp => verify_path env fp false)
   | none => []) ++
  (match args.parameters_fp with
   | some fp => [verify_path env fp false]
   | none => []) ++
  (if args.output_dir ≠ "." then [verify_path env args.output_dir true] else [])

/-- `main()` from `distribute.py`: path validation, template reading and
placeholder discovery, parameter resolution, sample splitting, the
output loop, and the optional parameter save. -/
def mainRun (args : Args) (env : Env) : MainOut :=
  if ¬(pathErrs args env).all id then { writes := [], exitCode := 1 }
  else
    let template := env.content args.job_template
    let params : Finset String := (findPlaceholders template).toFinset
    let pvRes : ParseResult :=
      match args.parameters_fp with
      | none =>
        ParseResult.ok (input_params (findPlaceholders template).dedup env.userInput)
      | some fp => parse_parameters_file (pylines (env.content fp)) params
    match pvRes with
    | ParseResult.valueError => { writes := [], exitCode := 1 }
    | ParseResult.paramsMissing _ => { writes := [], exitCode := 1 }
    | ParseResult.ok param_vals =>
      let sample_groups : List (List String) :=
        match args.sample_ids_list_fp with
        | some fp => split (pylines (env.content fp)) args.partition
        | none => (args.split_sample_ids_fps.getD []).map (fun fp => [fp])
      let se := ospSplitext (ospBasename args.job_template)
      let res := jobLoop args.output_dir (firstTok se.1) se.2 template
        args.split_sample_ids_fps 1 param_vals sample_groups
      match res.2 with
      | none => { writes := res.1, exitCode := 1 }
      | some pvFinal =>
        match args.save_params with
        | none => { writes := res.1, exitCode := 0 }
        | some sp => { writes := res.1 ++ [(sp, saveParams pvFinal)], exitCode := 0 }

/-!  Spec-side restatement of the reconciler (claim C4), written from
the specification's words: `failed_runs` as a set of run-index tokens,
`sample_ids` as a union over implicated sample files, `completed` as the
set of first-token prefixes, and the result `sorted(sample_ids −
completed)`. -/

/-- Spec: the set of run-index tokens of logs matching the marker. -/
def failedRunsSpec (log_files : List PFile) (failSearch : String → Bool) : Finset String :=
  ((log_files.filter (fun lf => failSearch lf.content)).map
    (fun lf => lastTok lf.stem)).toFinset

/-- Spec: the union of the line sets of the implicated sample files. -/
def sampleIdsSpec (sample_files : List PFile) (failedRuns : Finset String) : Finset String :=
  (sample_files.filter (fun f => lastTok f.stem ∈ failedRuns)).foldr
    (fun f acc => (pylines f.content).toFinset ∪ acc) ∅

/-- Spec: `sorted(sample_ids − completed)` with the components above. -/
def reconcileSpec (log_files : List PFile) (failSearch : String → Bool)
    (sample_files : List PFile) (job_folder : Option (List PFile)) : List String :=
  (sampleIdsSpec sample_files (failedRunsSpec log_files failSearch) \
    completedOf job_folder).sort (· ≤ ·)

/-!  Spec-side restatement of normal-mode materialization (claim C5),
written from the specification's words: for chunk `i` (1-indexed), a
sample-subset file at `output_dir/pfx_samples_i.txt` holding the chunk's
IDs one per line with a trailing newline, then the job script at
`output_dir/pfx_i ++ ext` holding the template with every placeholder
substituted from the mapping extended with that chunk's reserved
values. -/

/-- The writes claim C5 describes, chunk by chunk in order. -/
def materializeSpecWrites (output_dir pfx ext template : String) (pv : Dict)
    (groups : List (List String)) : List (String × String) :=
  ((groups.enumFrom 1).map (fun ig =>
    let sfp := ospJoin output_dir (pfx ++ "_samples_" ++ toString ig.1 ++ ".txt")
    [(sfp, pyJoinNL ig.2 ++ "\n"),
     (ospJoin output_dir (pfx ++ "_" ++ toString ig.1 ++ ext),
      (pyformat template (dlookup (extendPV pv sfp ig.1))).getD "")])).flatten

/-!  Validation-failure conditions of `main` (claim C7). -/

/-- Some required input path does not exist. -/
def requiredPathMissing (args : Args) (env : Env) : Prop :=
  env.pathExists args.job_template = false ∨
  (∃ fp, args.sample_ids_list_fp = some fp ∧ env.pathExists fp = false) ∨
  (∃ fps, args.split_sample_ids_fps = some fps ∧ ∃ fp ∈ fps, env.pathExists fp = false) ∨
  (∃ fp, args.parameters_fp = some fp ∧ env.pathExists fp = false)

/-- Parameter-file resolution raises the missing-parameters error. -/
def paramsMissingRaised (args : Args) (env : Env) : Prop :=
  ∃ fp s, args.parameters_fp = some fp ∧
    parse_parameters_file (pylines (env.content fp))
      ((findPlaceholders (env.content args.job_template)).toFinset) =
      ParseResult.paramsMissing s

/-!  Helper lemmas: dict lookups. -/

theorem dlookup_cons (a : String × String) (t : Dict) (k : String) :
    dlookup (a :: t) k = if a.1 = k then some a.2 else dlookup t k := by
  by_cases h : a.1 = k
  · simp [dlookup, List.find?_cons_of_pos, h]
  · simp [dlookup, List.find?_cons_of_neg, h]

theorem dlookup_map_update_ne (t : Dict) (k v k' : String) (h : k' ≠ k) :
    dlookup (t.map (fun p => if p.1 = k then (k, v) else p)) k' = dlookup t k' := by
  induction t with
  | nil => rfl
  | cons a t ih =>
    simp only [List.map_cons]
    rw [dlookup_cons, dlookup_cons]
    by_cases hak : a.1 = k
    · rw [if_pos hak]
      rw [if_neg (fun hh : (k, v).1 = k' => h hh.symm)]
      rw [if_neg (fun hh : a.1 = k' => h (hh.symm.trans hak))]
      exact ih
    · rw [if_neg hak]
      by_cases hk' : a.1 = k'
      · rw [if_pos hk', if_pos hk']
      · rw [if_neg hk', if_neg hk']
        exact ih

theorem dlookup_dictInsert_self (d : Dict) (k v : String) :
    dlookup (dictInsert d k v) k = some v := by
  unfold dictInsert
  by_cases hany : d.any (fun p => p.1 = k)
  · rw [if_pos hany]
    induction d with
    | nil => simp at hany
    | cons a t ih =>
      simp only [List.map_cons]
      by_cases hak : a.1 = k
      · rw [if_pos hak, dlookup_cons, if_pos rfl]
      · rw [if_neg hak, dlookup_cons, if_neg hak]
        apply ih
        simp only [List.any_cons, Bool.or_eq_true] at hany
        rcases hany with h | h
        · exact absurd (by simpa using h) hak
        · exact h
  · rw [if_neg hany]
    induction d with
    | nil => rw [List.nil_append, dlookup_cons, if_pos rfl]
    | cons a t ih =>
      simp only [List.any_cons, Bool.or_eq_true, not_or] at hany
      rw [List.cons_append, dlookup_cons, if_neg (by simpa using hany.1)]
      exact ih (by simpa using hany.2)

theorem dlookup_dictInsert_ne (d : Dict) (k v k' : String) (h : k' ≠ k) :
    dlookup (dictInsert d k v) k' = dlookup d k' := by
  unfold dictInsert
  by_cases hany : d.any (fun p => p.1 = k)
  · rw [if_pos hany]
    exact dlookup_map_update_ne d k v k' h
  · rw [if_neg hany]
    induction d with
    | nil => rw [List.nil_append, dlookup_cons, if_neg (fun hh => h hh.symm)]
    | cons a t ih =>
      simp only [List.any_cons, Bool.or_eq_true, not_or] at hany
      rw [List.cons_append, dlookup_cons, dlookup_cons]
      by_cases hk' : a.1 = k'
      · rw [if_pos hk', if_pos hk']
      · rw [if_neg hk', if_neg hk']
        exact ih (by simpa using hany.2)

theorem dlookup_extendPV (pv : Dict) (s : String) (i : Nat) (k : String) :
    dlookup (extendPV pv s i) k =
      if k = "job_id" then some (toString i)
      else if k = "samples_fp" then some s
      else dlookup pv k := by
  unfold extendPV
  by_cases hj : k = "job_id"
  · rw [if_pos hj, hj, dlookup_dictInsert_self]
  · rw [if_neg hj, dlookup_dictInsert_ne _ _ _ _ hj]
    by_cases hs : k = "samples_fp"
    · rw [if_pos hs, hs, dlookup_dictInsert_self]
    · rw [if_neg hs, dlookup_dictInsert_ne _ _ _ _ hs]

theorem mem_keysOf (d : Dict) (k : String) :
    k ∈ keysOf d ↔ (dlookup d k).isSome := by
  induction d with
  | nil => simp [keysOf, dlookup]
  | cons a t ih =>
    simp only [keysOf, List.map_cons, List.toFinset_cons, Finset.mem_insert,
      dlookup_cons] at *
    by_cases hak : a.1 = k
    · simp [hak]
    · simp only [if_neg hak, ih]
      constructor
      · rintro (h | h)
        · exact absurd h.symm hak
        · exact h
      · exact Or.inr

/-!  Helper lemmas: character-level splitting and joining. -/

theorem pySplitChars_ne_nil (sep : Char) (l : List Char) :
    pySplitChars sep l ≠ [] := by
  induction l with
  | nil => simp [pySplitChars]
  | cons c cs ih =>
    rw [pySplitChars]
    by_cases h : c = sep
    · simp [h]
    · simp only [if_neg h]
      cases hcs : pySplitChars sep cs <;> simp

theorem pySplitChars_not_mem (sep : Char) (l : List Char) (h : sep ∉ l) :
    pySplitChars sep l = [l] := by
  induction l with
  | nil => rfl
  | cons c cs ih =>
    simp only [List.mem_cons, not_or] at h
    rw [pySplitChars, if_neg (fun hh => h.1 hh.symm), ih h.2]

theorem pySplitChars_append_sep (sep : Char) (x r : List Char) (h : sep ∉ x) :
    pySplitChars sep (x ++ sep :: r) = x :: pySplitChars sep r := by
  induction x with
  | nil =>
    rw [List.nil_append, pySplitChars, if_pos rfl]
  | cons c cs ih =>
    simp only [List.mem_cons, not_or] at h
    rw [List.cons_append, pySplitChars, if_neg (fun hh => h.1 hh.symm), ih h.2]

theorem pySplitChars_sepJoin_concat (sep : Char) (L : List (List Char))
    (hne : L ≠ []) (h : ∀ x ∈ L, sep ∉ x) :
    pySplitChars sep (sepJoin sep L ++ [sep]) = L ++ [[]] := by
  induction L with
  | nil => exact absurd rfl hne
  | cons x xs ih =>
    cases xs with
    | nil =>
      have hx : sep ∉ x := h x (List.mem_cons_self x [])
      show pySplitChars sep (x ++ [sep]) = [x, []]
      have : x ++ [sep] = x ++ sep :: [] := rfl
      rw [this, pySplitChars_append_sep sep x [] hx]
      rfl
    | cons y ys =>
      have hx : sep ∉ x := h x (List.mem_cons_self x _)
      show pySplitChars sep ((x ++ sep :: sepJoin sep (y :: ys)) ++ [sep]) = x :: ((y :: ys) ++ [[]])
      rw [List.append_assoc, List.cons_append,
        pySplitChars_append_sep sep x _ hx,
        ih (by simp) (fun z hz => h z (List.mem_cons_of_mem x hz))]

theorem strMk_data (s : String) : String.mk s.data = s := by
  obtain ⟨l⟩ := s
  rfl

theorem getLastD_concat (l : List α) (x d : α) : (l ++ [x]).getLastD d = x := by
  induction l generalizing d with
  | nil => rfl
  | cons a t ih =>
    rw [List.cons_append, List.getLastD_cons]
    exact ih a

/-- Re-parsing a newline-joined, newline-terminated list of
newline-free lines restores the lines. -/
theorem pylines_pyJoinNL (lines : List String) (hne : lines ≠ [])
    (h : ∀ s ∈ lines, '\n' ∉ s.data) :
    pylines (pyJoinNL lines ++ "\n") = lines := by
  unfold pylines pyJoinNL
  have hdata : (String.mk (sepJoin '\n' (lines.map String.data)) ++ "\n").data =
      sepJoin '\n' (lines.map String.data) ++ ['\n'] := by
    rw [String.data_append]
  rw [hdata, pySplitChars_sepJoin_concat '\n' (lines.map String.data)
    (by simpa using hne)
    (by intro x hx; rcases List.mem_map.mp hx with ⟨s, hs, rfl⟩; exact h s hs)]
  rw [List.map_append, List.map_map]
  have hm : lines.map (String.mk ∘ String.data) = lines := by
    have h1 : lines.map (String.mk ∘ String.data) = lines.map id :=
      List.map_congr_left (fun s _ => strMk_data s)
    rw [h1, List.map_id]
  rw [hm]
  show (if (lines ++ [String.mk []]).getLastD "" = "" then
    (lines ++ [String.mk []]).dropLast else lines ++ [String.mk []]) = lines
  rw [getLastD_concat, if_pos rfl, List.dropLast_concat]

/-!  Helper lemmas: whitespace stripping and parameter-line parsing. -/

theorem dropWhile_length_le (p : Char → Bool) (l : List Char) :
    (l.dropWhile p).length ≤ l.length := by
  induction l with
  | nil => simp
  | cons a t ih =>
    rw [List.dropWhile_cons]
    by_cases hpa : p a
    · rw [if_pos hpa]
      simp only [List.length_cons]
      omega
    · rw [if_neg hpa]

theorem dropWhile_eq_self_of_length (p : Char → Bool) (l : List Char)
    (h : (l.dropWhile p).length = l.length) : l.dropWhile p = l := by
  induction l with
  | nil => rfl
  | cons a t ih =>
    rw [List.dropWhile_cons] at h ⊢
    by_cases hpa : p a
    · rw [if_pos hpa] at h ⊢
      have hle := dropWhile_length_le p t
      simp only [List.length_cons] at h
      exact absurd h (by omega)
    · rw [if_neg hpa]

/-- A string fixed by `strip` has no leading whitespace and no trailing
whitespace, componentwise. -/
theorem pystrip_parts (s : String) (h : pystrip s = s) :
    s.data.dropWhile isPySpace = s.data ∧
    s.data.reverse.dropWhile isPySpace = s.data.reverse := by
  have hd : ((s.data.dropWhile isPySpace).reverse.dropWhile isPySpace).reverse = s.data := by
    have h2 := congrArg String.data h
    simpa [pystrip] using h2
  have l1 : ((s.data.dropWhile isPySpace).reverse.dropWhile isPySpace).length ≤
      (s.data.dropWhile isPySpace).length := by
    have hle := dropWhile_length_le isPySpace (s.data.dropWhile isPySpace).reverse
    simpa using hle
  have l2 : (s.data.dropWhile isPySpace).length ≤ s.data.length :=
    dropWhile_length_le _ _
  have l3 : ((s.data.dropWhile isPySpace).reverse.dropWhile isPySpace).length =
      s.data.length := by
    have h3 := congrArg List.length hd
    simpa using h3
  have ht : s.data.dropWhile isPySpace = s.data :=
    dropWhile_eq_self_of_length _ _ (by omega)
  rw [ht] at hd
  refine ⟨ht, ?_⟩
  have h4 := congrArg List.reverse hd
  simpa using h4

theorem takeWhile_append_all (p : Char → Bool) (x r : List Char)
    (hx : ∀ c ∈ x, p c) : (x ++ r).takeWhile p = x ++ r.takeWhile p := by
  induction x with
  | nil => simp
  | cons c cs ih =>
    rw [List.cons_append, List.takeWhile_cons, if_pos (hx c (List.mem_cons_self _ _)),
      List.cons_append, ih (fun d hd => hx d (List.mem_cons_of_mem _ hd))]

theorem dropWhile_append_all (p : Char → Bool) (x r : List Char)
    (hx : ∀ c ∈ x, p c) : (x ++ r).dropWhile p = r.dropWhile p := by
  induction x with
  | nil => simp
  | cons c cs ih =>
    rw [List.cons_append, List.dropWhile_cons, if_pos (hx c (List.mem_cons_self _ _)),
      ih (fun d hd => hx d (List.mem_cons_of_mem _ hd))]

/-- Parsing a rendered `name: value` line recovers the pair, when the
name is colon-free and both sides are strip-fixed. -/
theorem parseLine_render (k v : String) (hc : ':' ∉ k.data)
    (hk : pystrip k = k) (hv : pystrip v = v) :
    parseLine (k ++ ": " ++ v) = some (k, v) := by
  have hdata : (k ++ ": " ++ v).data = k.data ++ ':' :: ' ' :: v.data := by
    rw [String.data_append, String.data_append, List.append_assoc]
    rfl
  unfold parseLine pySplit1
  rw [hdata]
  have hmem : ':' ∈ k.data ++ ':' :: ' ' :: v.data :=
    List.mem_append_right _ (List.mem_cons_self _ _)
  rw [if_pos hmem]
  have hkeep : ∀ c ∈ k.data, (fun c => decide (c ≠ ':')) c := by
    intro c hcM
    simp only [decide_eq_true_iff]
    exact fun hEq => hc (hEq ▸ hcM)
  have htw : (k.data ++ ':' :: ' ' :: v.data).takeWhile (fun c => decide (c ≠ ':')) = k.data := by
    rw [takeWhile_append_all _ _ _ hkeep, List.takeWhile_cons, if_neg (by simp)]
    simp
  have hdw : (k.data ++ ':' :: ' ' :: v.data).dropWhile (fun c => decide (c ≠ ':')) =
      ':' :: ' ' :: v.data := by
    rw [dropWhile_append_all _ _ _ hkeep, List.dropWhile_cons, if_neg (by simp)]
  rw [htw, hdw]
  have hv2 : pystrip (String.mk (' ' :: v.data)) = v := by
    unfold pystrip
    show String.mk (((' ' :: v.data).dropWhile isPySpace).reverse.dropWhile isPySpace).reverse = v
    rw [List.dropWhile_cons, if_pos (show isPySpace ' ' = true from rfl),
      (pystrip_parts v hv).1, (pystrip_parts v hv).2, List.reverse_reverse, strMk_data]
  simp only [List.tail_cons, List.map_cons, List.map_nil]
  rw [strMk_data, hk, hv2]

/-- The line loop of `parse_parameters_file` on rendered lines with
fresh keys appends each pair in order. -/
theorem parseLinesAux_renders (d : Dict) : ∀ acc : Dict,
    (∀ p ∈ d, ':' ∉ p.1.data ∧ pystrip p.1 = p.1 ∧ pystrip p.2 = p.2) →
    ((acc ++ d).map Prod.fst).Nodup →
    parseLinesAux acc (d.map (fun p => p.1 ++ ": " ++ p.2)) = some (acc ++ d) := by
  induction d with
  | nil =>
    intro acc _ _
    simp [parseLinesAux]
  | cons p rest ih =>
    intro acc hcond hnodup
    simp only [List.map_cons]
    have hp := hcond p (List.mem_cons_self _ _)
    simp only [parseLinesAux, parseLine_render p.1 p.2 hp.1 hp.2.1 hp.2.2]
    have hnotin : ¬acc.any (fun q => q.1 = p.1) = true := by
      rw [List.map_append] at hnodup
      have hdisj := (List.nodup_append.mp hnodup).2.2
      intro hany
      rcases List.any_eq_true.mp hany with ⟨q, hq, hq1⟩
      have hq1' : q.1 = p.1 := by simpa using hq1
      exact hdisj (hq1' ▸ List.mem_map_of_mem Prod.fst hq)
        (by simp)
    have hins : dictInsert acc p.1 p.2 = acc ++ [p] := by
      unfold dictInsert
      rw [if_neg hnotin]
    rw [hins]
    have heq : (acc ++ [p]) ++ rest = acc ++ p :: rest := by simp
    rw [ih (acc ++ [p]) (fun q hq => hcond q (List.mem_cons_of_mem _ hq))
      (by rw [heq]; exact hnodup), heq]

/-!  Helper lemmas: the reconciler's set computations. -/

theorem mem_foldl_union (g : PFile → Finset String) (l : List PFile)
    (init : Finset String) (x : String) :
    x ∈ l.foldl (fun acc f => acc ∪ g f) init ↔ x ∈ init ∨ ∃ f ∈ l, x ∈ g f := by
  induction l generalizing init with
  | nil => simp
  | cons a t ih =>
    rw [List.foldl_cons, ih]
    simp only [Finset.mem_union, List.mem_cons]
    constructor
    · rintro ((h | h) | ⟨f, hf, hx⟩)
      · exact Or.inl h
      · exact Or.inr ⟨a, Or.inl rfl, h⟩
      · exact Or.inr ⟨f, Or.inr hf, hx⟩
    · rintro (h | ⟨f, (rfl | hf), hx⟩)
      · exact Or.inl (Or.inl h)
      · exact Or.inl (Or.inr hx)
      · exact Or.inr ⟨f, hf, hx⟩

theorem mem_foldr_union (g : PFile → Finset String) (l : List PFile) (x : String) :
    x ∈ l.foldr (fun f acc => g f ∪ acc) ∅ ↔ ∃ f ∈ l, x ∈ g f := by
  induction l with
  | nil => simp
  | cons a t ih =>
    simp only [List.foldr_cons, Finset.mem_union, ih, List.mem_cons]
    constructor
    · rintro (h | ⟨f, hf, hx⟩)
      · exact ⟨a, Or.inl rfl, h⟩
      · exact ⟨f, Or.inr hf, hx⟩
    · rintro ⟨f, (rfl | hf), hx⟩
      · exact Or.inl hx
      · exact Or.inr ⟨f, hf, hx⟩

theorem mem_sampleIdsOf (samples : List PFile) (runs : List String) (x : String) :
    x ∈ sampleIdsOf samples runs ↔
      ∃ f ∈ samples, lastTok f.stem ∈ runs ∧ x ∈ (pylines f.content).toFinset := by
  unfold sampleIdsOf
  rw [mem_foldl_union]
  simp only [Finset.not_mem_empty, false_or, List.mem_mergeSort, List.mem_filter,
    decide_eq_true_eq]
  constructor
  · rintro ⟨f, ⟨hf, hrun⟩, hx⟩
    exact ⟨f, hf, hrun, hx⟩
  · rintro ⟨f, hf, hrun, hx⟩
    exact ⟨f, ⟨hf, hrun⟩, hx⟩

theorem sampleIdsOf_eq_spec (samples : List PFile) (runs : List String) :
    sampleIdsOf samples runs = sampleIdsSpec samples runs.toFinset := by
  ext x
  rw [mem_sampleIdsOf]
  unfold sampleIdsSpec
  rw [mem_foldr_union]
  simp [List.mem_filter, and_assoc]

/-- Membership in the reconciler's output list. -/
theorem mem_reconcile (log_files : List PFile) (failSearch : String → Bool)
    (sample_files : List PFile) (job_folder : Option (List PFile)) (x : String) :
    x ∈ reconcile log_files failSearch sample_files job_folder ↔
      x ∈ sampleIdsOf sample_files (parse_log_files log_files failSearch) ∧
      x ∉ completedOf job_folder := by
  unfold reconcile gather_failed_samples
  rw [Finset.mem_sort, Finset.mem_sdiff]

theorem parse_log_files_append (l₁ l₂ : List PFile) (failSearch : String → Bool) :
    parse_log_files (l₁ ++ l₂) failSearch =
      parse_log_files l₁ failSearch ++ parse_log_files l₂ failSearch := by
  unfold parse_log_files
  rw [List.filter_append, List.map_append]

/-!  Helper lemmas: the output loop and `main`. -/

theorem ppf_of_parseLines (lines : List String) (P : Finset String) (d : Dict)
    (h : parseLines lines = some d) :
    parse_parameters_file lines P =
      if ((P \ keysOf d) \ reservedNames).Nonempty then
        ParseResult.paramsMissing (P \ keysOf d)
      else ParseResult.ok d := by
  unfold parse_parameters_file
  rw [h]

theorem dlookup_extendPV_congr (pv pvc : Dict) (s : String) (i : Nat)
    (hinv : ∀ k, k ≠ "job_id" → k ≠ "samples_fp" → dlookup pvc k = dlookup pv k) :
    dlookup (extendPV pvc s i) = dlookup (extendPV pv s i) := by
  funext k
  rw [dlookup_extendPV, dlookup_extendPV]
  by_cases hj : k = "job_id"
  · rw [if_pos hj, if_pos hj]
  · rw [if_neg hj, if_neg hj]
    by_cases hs : k = "samples_fp"
    · rw [if_pos hs, if_pos hs]
    · rw [if_neg hs, if_neg hs, hinv k hj hs]

theorem extendPV_inv (pv pvc : Dict) (s : String) (i : Nat)
    (hinv : ∀ k, k ≠ "job_id" → k ≠ "samples_fp" → dlookup pvc k = dlookup pv k) :
    ∀ k, k ≠ "job_id" → k ≠ "samples_fp" → dlookup (extendPV pvc s i) k = dlookup pv k := by
  intro k hj hs
  rw [dlookup_extendPV, if_neg hj, if_neg hs, hinv k hj hs]

/-- The normal-mode output loop, started at any index with any threaded
dict that agrees with the base dict off the reserved keys, produces
exactly the claim's writes, provided every chunk's substitution
succeeds. -/
theorem jobLoop_none_spec (output_dir pfx ext template : String) (pv : Dict) :
    ∀ (groups : List (List String)) (i : Nat) (pvc : Dict),
    (∀ k, k ≠ "job_id" → k ≠ "samples_fp" → dlookup pvc k = dlookup pv k) →
    (∀ ig ∈ groups.enumFrom i,
      (pyformat template (dlookup (extendPV pv
        (ospJoin output_dir (pfx ++ "_samples_" ++ toString ig.1 ++ ".txt")) ig.1))).isSome) →
    (jobLoop output_dir pfx ext template none i pvc groups).1 =
      ((groups.enumFrom i).map (fun ig =>
        let sfp := ospJoin output_dir (pfx ++ "_samples_" ++ toString ig.1 ++ ".txt")
        [(sfp, pyJoinNL ig.2 ++ "\n"),
         (ospJoin output_dir (pfx ++ "_" ++ toString ig.1 ++ ext),
          (pyformat template (dlookup (extendPV pv sfp ig.1))).getD "")])).flatten ∧
    (jobLoop output_dir pfx ext template none i pvc groups).2.isSome := by
  intro groups
  induction groups with
  | nil =>
    intro i pvc hinv hfmt
    exact ⟨rfl, rfl⟩
  | cons g rest ih =>
    intro i pvc hinv hfmt
    have hcongr := dlookup_extendPV_congr pv pvc
      (ospJoin output_dir (pfx ++ "_samples_" ++ toString i ++ ".txt")) i hinv
    have hfmtHead := hfmt (i, g) (by rw [List.enumFrom_cons]; exact List.mem_cons_self _ _)
    obtain ⟨txt, htxt⟩ := Option.isSome_iff_exists.mp hfmtHead
    have hrec := ih (i + 1) (extendPV pvc
        (ospJoin output_dir (pfx ++ "_samples_" ++ toString i ++ ".txt")) i)
      (extendPV_inv pv pvc _ i hinv)
      (fun ig hig => hfmt ig (by rw [List.enumFrom_cons]; exact List.mem_cons_of_mem _ hig))
    simp only [jobLoop, hcongr, htxt, List.enumFrom_cons, List.map_cons, List.flatten_cons]
    rw [hrec.1]
    refine ⟨rfl, ?_⟩
    simpa using hrec.2

theorem verify_path_noCreate (env : Env) (p : String) :
    verify_path env p false = env.pathExists p := by
  cases h : env.pathExists p <;> simp [verify_path, h]

theorem requiredPathMissing_not_all (args : Args) (env : Env)
    (h : requiredPathMissing args env) : ¬(pathErrs args env).all id = true := by
  intro hall
  rw [List.all_eq_true] at hall
  unfold requiredPathMissing at h
  rcases h with h | ⟨fp, hfp, hmiss⟩ | ⟨fps, hfps, fp, hfp, hmiss⟩ | ⟨fp, hfp, hmiss⟩
  · have hmem : verify_path env args.job_template false ∈ pathErrs args env := by
      unfold pathErrs
      simp
    have := hall _ hmem
    rw [verify_path_noCreate] at this
    simp only [id] at this
    rw [h] at this
    exact Bool.false_ne_true this
  · have hmem : verify_path env fp false ∈ pathErrs args env := by
      unfold pathErrs
      rw [hfp]
      simp
    have := hall _ hmem
    rw [verify_path_noCreate] at this
    simp only [id] at this
    rw [hmiss] at this
    exact Bool.false_ne_true this
  · have hmem : verify_path env fp false ∈ pathErrs args env := by
      unfold pathErrs
      rw [hfps]
      simp only [List.mem_append, List.mem_map]
      exact Or.inl (Or.inl (Or.inr ⟨fp, hfp, rfl⟩))
    have := hall _ hmem
    rw [verify_path_noCreate] at this
    simp only [id] at this
    rw [hmiss] at this
    exact Bool.false_ne_true this
  · have hmem : verify_path env fp false ∈ pathErrs args env := by
      unfold pathErrs
      rw [hfp]
      simp
    have := hall _ hmem
    rw [verify_path_noCreate] at this
    simp only [id] at this
    rw [hmiss] at this
    exact Bool.false_ne_true this

theorem mainRun_pathFail (args : Args) (env : Env)
    (h : ¬(pathErrs args env).all id = true) :
    mainRun args env = ⟨[], 1⟩ := by
  unfold mainRun
  rw [if_pos h]

theorem mainRun_paramsMissing (args : Args) (env : Env)
    (hall : (pathErrs args env).all id = true)
    (h : paramsMissingRaised args env) :
    mainRun args env = ⟨[], 1⟩ := by
  obtain ⟨fp, s, hfp, heq⟩ := h
  unfold mainRun
  rw [if_neg (by simp [hall]), hfp]
  simp only [heq]

/-!  The claims. -/

/-- Claim C1: for every non-empty list and positive partition size,
`split` returns chunks whose in-order concatenation reproduces the list
exactly; every chunk except possibly the last has exactly `partitions`
elements, and the last has between 1 and `partitions` elements.
Determinism of the boundaries and preservation of input order are
definitional (`split` is a pure function and the concatenation equality
fixes the order). -/
theorem claim_C1_partition_correct (α : Type) (items : List α) (p : Int)
    (hne : items ≠ []) (hp : 0 < p) :
    (split items p).flatten = items ∧
    (∀ c ∈ (split items p).dropLast, c.length = p.toNat) ∧
    1 ≤ ((split items p).getLastD []).length ∧
    ((split items p).getLastD []).length ≤ p.toNat := by
  rw [split_eq_splitAux items p hp]
  have hn : p.toNat - 1 + 1 = p.toNat := by omega
  refine ⟨splitAux_flatten _ _, ?_, ?_, ?_⟩
  · intro c hc
    rw [← hn]
    exact splitAux_dropLast_length _ _ c hc
  · exact (splitAux_getLast_length _ _ hne).1
  · rw [← hn]
    exact (splitAux_getLast_length _ _ hne).2

theorem claim_C1_witness :
    ([1, 2, 3, 4, 5] : List Nat) ≠ [] ∧ (0 : Int) < 2 ∧
    (split ([1, 2, 3, 4, 5] : List Nat) 2).flatten = [1, 2, 3, 4, 5] ∧
    1 ≤ ((split ([1, 2, 3, 4, 5] : List Nat) 2).getLastD []).length ∧
    ((split ([1, 2, 3, 4, 5] : List Nat) 2).getLastD []).length ≤ (2 : Int).toNat := by
  have h := claim_C1_partition_correct Nat [1, 2, 3, 4, 5] 2 (by decide) (by decide)
  exact ⟨by decide, by decide, h.1, h.2.2.1, h.2.2.2⟩

/-- Claim C8: for every item list (empty or not) and every partition
size at most 0, `split` returns the empty chunk list; it is total, so no
error is raised. -/
theorem claim_C8_nonpositive_no_chunks (α : Type) (items : List α) (p : Int)
    (h : p ≤ 0) : split items p = [] := by
  rw [split, if_neg (by omega)]

theorem claim_C8_witness :
    (-3 : Int) ≤ 0 ∧ split ([1, 2, 3] : List Nat) (-3) = [] :=
  ⟨by decide, claim_C8_nonpositive_no_chunks Nat [1, 2, 3] (-3) (by decide)⟩

/-- Claim C2: for a parameter file whose lines parse to the dict `d`
(key set `keysOf d`), `parse_parameters_file` succeeds with exactly that
dict iff `P − keysOf d − {job_id, samples_fp} = ∅`, and on success the
mapping has a value for every non-reserved placeholder in `P`. -/
theorem claim_C2_file_mode_resolution (lines : List String) (P : Finset String) (d : Dict)
    (h : parseLines lines = some d) :
    (parse_parameters_file lines P = ParseResult.ok d ↔
      (P \ keysOf d) \ reservedNames = ∅) ∧
    (parse_parameters_file lines P = ParseResult.ok d →
      ∀ p ∈ P, p ∉ reservedNames → (dlookup d p).isSome) := by
  rw [ppf_of_parseLines lines P d h]
  constructor
  · by_cases hne : ((P \ keysOf d) \ reservedNames).Nonempty
    · rw [if_pos hne]
      constructor
      · intro hcon
        exact absurd hcon (by simp)
      · intro hempty
        rw [hempty] at hne
        exact absurd hne (by simp)
    · rw [if_neg hne]
      simp [Finset.not_nonempty_iff_eq_empty.mp hne]
  · intro hok p hp hpres
    by_cases hne : ((P \ keysOf d) \ reservedNames).Nonempty
    · rw [if_pos hne] at hok
      exact absurd hok (by simp)
    · have hempty := Finset.not_nonempty_iff_eq_empty.mp hne
      have hpk : p ∈ keysOf d := by
        by_contra hnk
        have hmem : p ∈ (P \ keysOf d) \ reservedNames := by
          rw [Finset.mem_sdiff, Finset.mem_sdiff]
          exact ⟨⟨hp, hnk⟩, hpres⟩
        rw [hempty] at hmem
        exact absurd hmem (Finset.not_mem_empty p)
      exact (mem_keysOf d p).mp hpk

theorem claim_C2_witness :
    (parse_parameters_file ["a: 1"] {"a", "job_id"} = ParseResult.ok [("a", "1")] ↔
      (({"a", "job_id"} : Finset String) \ keysOf [("a", "1")]) \ reservedNames = ∅) ∧
    (dlookup [("a", "1")] "a").isSome := by
  have h := claim_C2_file_mode_resolution ["a: 1"] {"a", "job_id"} [("a", "1")] (by decide)
  exact ⟨h.1, h.2 (by decide) "a" (by decide) (by decide)⟩

/-- Claim C3 counterexample: with template placeholders
`P = {foo, job_id}` and an empty parameter file (`K = ∅`), the raised
exception carries `missing = P − K = {foo, job_id}`, which is not
`P − K − {job_id, samples_fp} = {foo}`: the reserved name `job_id` is
included in the reported set, contradicting the claim (the carried
value, a Python set, is also not a sorted list). -/
theorem claim_C3_counterexample :
    parse_parameters_file [] {"foo", "job_id"} =
      ParseResult.paramsMissing {"foo", "job_id"} ∧
    ({"foo", "job_id"} : Finset String) ≠
      (({"foo", "job_id"} : Finset String) \ keysOf []) \ reservedNames := by
  constructor
  · decide
  · decide

/-- Claim C3 (amended): whenever `parse_parameters_file` fails with the
missing-parameters error, the carried set is exactly `P − K` (it can
include the reserved names, and it is an unordered set); the failure
happens precisely when `P − K − {job_id, samples_fp}` is non-empty. -/
theorem claim_C3_missing_reported (lines : List String) (P : Finset String) (d : Dict)
    (h : parseLines lines = some d) :
    (∀ s, parse_parameters_file lines P = ParseResult.paramsMissing s →
      s = P \ keysOf d) ∧
    (parse_parameters_file lines P = ParseResult.paramsMissing (P \ keysOf d) ↔
      (P \ keysOf d) \ reservedNames ≠ ∅) := by
  rw [ppf_of_parseLines lines P d h]
  constructor
  · intro s hs
    by_cases hne : ((P \ keysOf d) \ reservedNames).Nonempty
    · rw [if_pos hne] at hs
      injection hs with h1
      exact h1.symm
    · rw [if_neg hne] at hs
      exact absurd hs (by simp)
  · by_cases hne : ((P \ keysOf d) \ reservedNames).Nonempty
    · rw [if_pos hne]
      simp [Finset.nonempty_iff_ne_empty.mp hne]
    · rw [if_neg hne]
      constructor
      · intro hcon
        exact absurd hcon (by simp)
      · intro hcon
        exact absurd (Finset.not_nonempty_iff_eq_empty.mp hne) hcon

theorem claim_C3_witness :
    parse_parameters_file [] {"foo", "job_id"} =
      ParseResult.paramsMissing (({"foo", "job_id"} : Finset String) \ keysOf []) ↔
    (({"foo", "job_id"} : Finset String) \ keysOf []) \ reservedNames ≠ ∅ :=
  (claim_C3_missing_reported [] {"foo", "job_id"} [] (by decide)).2

/-- Claim C4: the reconciliation pipeline equals the specification's
description: `sorted(sample_ids − completed)` where `failed_runs` are
the final-underscore tokens of matching logs, `sample_ids` the union of
the lines of sample files implicated by token membership, and
`completed` the first-token set of the completed-output files (empty
when none are supplied). -/
theorem claim_C4_reconciler_matches_spec (log_files : List PFile)
    (failSearch : String → Bool) (sample_files : List PFile)
    (job_folder : Option (List PFile)) :
    reconcile log_files failSearch sample_files job_folder =
      reconcileSpec log_files failSearch sample_files job_folder := by
  have h : sampleIdsOf sample_files (parse_log_files log_files failSearch) =
      sampleIdsSpec sample_files (failedRunsSpec log_files failSearch) := by
    rw [sampleIdsOf_eq_spec]
    rfl
  unfold reconcile gather_failed_samples reconcileSpec
  rw [h]

/-- Claim C6: holding logs, marker and sample files fixed, adding more
completed-output files never adds a sample to the reconciler's result;
holding sample and completed files fixed, appending more matching log
files never removes one. -/
theorem claim_C6_monotone (log_files extra_logs : List PFile)
    (failSearch : String → Bool) (sample_files : List PFile)
    (outs extra_outs : List PFile)
    (hmatch : ∀ f ∈ extra_logs, failSearch f.content = true) :
    (∀ x ∈ reconcile log_files failSearch sample_files (some (outs ++ extra_outs)),
      x ∈ reconcile log_files failSearch sample_files (some outs)) ∧
    (∀ x ∈ reconcile log_files failSearch sample_files (some outs),
      x ∈ reconcile (log_files ++ extra_logs) failSearch sample_files (some outs)) := by
  constructor
  · intro x hx
    rw [mem_reconcile] at hx ⊢
    refine ⟨hx.1, fun hc => hx.2 ?_⟩
    simp only [completedOf, List.map_append, List.toFinset_append, Finset.mem_union] at hc ⊢
    exact Or.inl hc
  · intro x hx
    rw [mem_reconcile] at hx ⊢
    refine ⟨?_, hx.2⟩
    have h1 := hx.1
    rw [mem_sampleIdsOf] at h1 ⊢
    obtain ⟨f, hf, hrun, hxin⟩ := h1
    exact ⟨f, hf, by rw [parse_log_files_append]; exact List.mem_append_left _ hrun, hxin⟩

theorem claim_C6_witness :
    (∀ f ∈ [PFile.mk "a_2" "E"], (fun s => s = "E" : String → Bool) f.content = true) ∧
    "B" ∈ reconcile [PFile.mk "a_1" "E"] (fun s => s = "E")
      [PFile.mk "s_1" "A\nB"] (some [PFile.mk "A_x" ""]) ∧
    "B" ∈ reconcile ([PFile.mk "a_1" "E"] ++ [PFile.mk "a_2" "E"]) (fun s => s = "E")
      [PFile.mk "s_1" "A\nB"] (some [PFile.mk "A_x" ""]) := by
  have h := claim_C6_monotone [PFile.mk "a_1" "E"] [PFile.mk "a_2" "E"]
    (fun s => s = "E") [PFile.mk "s_1" "A\nB"] [PFile.mk "A_x" ""] [PFile.mk "Z_x" ""]
    (by decide)
  have hbig : "B" ∈ reconcile [PFile.mk "a_1" "E"] (fun s => s = "E")
      [PFile.mk "s_1" "A\nB"] (some ([PFile.mk "A_x" ""] ++ [PFile.mk "Z_x" ""])) := by
    rw [mem_reconcile]
    refine ⟨?_, by decide⟩
    rw [mem_sampleIdsOf]
    exact ⟨PFile.mk "s_1" "A\nB", by decide, by decide, by decide⟩
  have hsmall := h.1 "B" hbig
  exact ⟨by decide, hsmall, h.2 "B" hsmall⟩

/-- Claim C10: when a file stem contains no underscore, the run-index
token (last element of the underscore split) and the completed-sample
token (first element) are the whole stem; such files still participate:
a matching log contributes its whole stem as a run index, a sample file
whose whole stem is an implicated run contributes all its lines, and a
completed-output file subtracts its whole stem from the residual. -/
theorem claim_C10_no_underscore_token (f : PFile) (h : '_' ∉ f.stem.data) :
    lastTok f.stem = f.stem ∧ firstTok f.stem = f.stem ∧
    (∀ failSearch : String → Bool, failSearch f.content = true →
      parse_log_files [f] failSearch = [f.stem]) ∧
    (∀ (others : List PFile) (runs : List String), f.stem ∈ runs →
      ∀ x ∈ (pylines f.content).toFinset, x ∈ sampleIdsOf (f :: others) runs) ∧
    (∀ (sample_files : List PFile) (runs : List String) (outs : List PFile), f ∈ outs →
      f.stem ∉ gather_failed_samples sample_files runs (some outs)) := by
  have htok : pySplit f.stem '_' = [f.stem] := by
    unfold pySplit
    rw [pySplitChars_not_mem '_' f.stem.data h]
    simp [strMk_data]
  have hlast : lastTok f.stem = f.stem := by
    unfold lastTok
    rw [htok]
    rfl
  have hfirst : firstTok f.stem = f.stem := by
    unfold firstTok
    rw [htok]
    rfl
  refine ⟨hlast, hfirst, ?_, ?_, ?_⟩
  · intro fm hfm
    unfold parse_log_files
    simp [hfm, hlast]
  · intro others runs hrun x hx
    rw [mem_sampleIdsOf]
    exact ⟨f, List.mem_cons_self _ _, by rw [hlast]; exact hrun, hx⟩
  · intro sample_files runs outs hfo
    intro hc
    unfold gather_failed_samples at hc
    rw [Finset.mem_sort, Finset.mem_sdiff] at hc
    apply hc.2
    have hm : firstTok f.stem ∈ outs.map (fun g => firstTok g.stem) :=
      List.mem_map_of_mem _ hfo
    rw [hfirst] at hm
    simpa [completedOf] using hm

theorem claim_C10_witness :
    lastTok "abc" = "abc" ∧ firstTok "abc" = "abc" ∧
    parse_log_files [PFile.mk "abc" "boom"] (fun _ => true) = ["abc"] ∧
    "A" ∈ sampleIdsOf [PFile.mk "abc" "A\nB"] ["abc"] ∧
    "abc" ∉ gather_failed_samples [] ["x"] (some [PFile.mk "abc" "A\nB"]) := by
  have h := claim_C10_no_underscore_token (PFile.mk "abc" "A\nB") (by decide)
  exact ⟨h.1, h.2.1,
    (claim_C10_no_underscore_token (PFile.mk "abc" "boom") (by decide)).2.2.1
      (fun _ => true) rfl,
    h.2.2.2.1 [] ["abc"] (by decide) "A" (by decide),
    h.2.2.2.2 [] ["x"] [PFile.mk "abc" "A\nB"] (by decide)⟩

/-- Claim C5: normal-mode materialization writes, for each chunk `i`
(1-indexed, no padding), the sample-subset file
`output_dir/pfx_samples_i.txt` holding the chunk's IDs one per line with
a trailing newline, then the job script `output_dir/pfx_i ++ ext`
holding the template with every placeholder substituted from the
mapping extended with `samples_fp` (that subset path) and `job_id`
(`str(i)`), where `pfx` is the stem up to its first underscore; stated
under the hypothesis that each chunk's substitution succeeds (otherwise
the run aborts mid-loop). -/
theorem claim_C5_normal_materialization (output_dir stem ext template : String)
    (pv : Dict) (groups : List (List String))
    (hfmt : ∀ ig ∈ groups.enumFrom 1,
      (pyformat template (dlookup (extendPV pv
        (ospJoin output_dir (firstTok stem ++ "_samples_" ++ toString ig.1 ++ ".txt"))
        ig.1))).isSome) :
    (materialize_normal output_dir stem ext template pv groups).1 =
      materializeSpecWrites output_dir (firstTok stem) ext template pv groups ∧
    (materialize_normal output_dir stem ext template pv groups).2.isSome := by
  unfold materialize_normal materializeSpecWrites
  exact jobLoop_none_spec output_dir (firstTok stem) ext template pv groups 1 pv
    (fun k _ _ => rfl) hfmt

theorem claim_C5_witness :
    (∀ ig ∈ ([["s1", "s2"], ["s3"]] : List (List String)).enumFrom 1,
      (pyformat "t {a} {job_id} {samples_fp}" (dlookup (extendPV [("a", "7")]
        (ospJoin "." (firstTok "run_template" ++ "_samples_" ++ toString ig.1 ++ ".txt"))
        ig.1))).isSome) ∧
    (materialize_normal "." "run_template" ".pbs" "t {a} {job_id} {samples_fp}"
      [("a", "7")] [["s1", "s2"], ["s3"]]).1 =
      materializeSpecWrites "." (firstTok "run_template") ".pbs"
        "t {a} {job_id} {samples_fp}" [("a", "7")] [["s1", "s2"], ["s3"]] ∧
    (materialize_normal "." "run_template" ".pbs" "t {a} {job_id} {samples_fp}"
      [("a", "7")] [["s1", "s2"], ["s3"]]).2.isSome := by
  have h := claim_C5_normal_materialization "." "run_template" ".pbs"
    "t {a} {job_id} {samples_fp}" [("a", "7")] [["s1", "s2"], ["s3"]] (by decide)
  exact ⟨by decide, h.1, h.2⟩

/-- Claim C7: if any required input path is missing, or parameter-file
resolution raises the missing-parameters error, `main` terminates with a
non-zero exit status having written no sample-subset file, job script or
saved-parameter file: the write list is empty on any validation
failure. -/
theorem claim_C7_validation_atomic (args : Args) (env : Env)
    (h : requiredPathMissing args env ∨ paramsMissingRaised args env) :
    (mainRun args env).writes = [] ∧ (mainRun args env).exitCode ≠ 0 := by
  rcases h with h | h
  · rw [mainRun_pathFail args env (requiredPathMissing_not_all args env h)]
    exact ⟨rfl, by decide⟩
  · by_cases hall : (pathErrs args env).all id = true
    · rw [mainRun_paramsMissing args env hall h]
      exact ⟨rfl, by decide⟩
    · rw [mainRun_pathFail args env hall]
      exact ⟨rfl, by decide⟩

theorem claim_C7_witness :
    (mainRun ⟨"tpl.pbs", some "ids.txt", none, 10, some "p.txt", ".", none⟩
      ⟨fun _ => false, fun _ => true, fun _ => "", fun _ => ""⟩).writes = [] ∧
    (mainRun ⟨"tpl.pbs", some "ids.txt", none, 10, some "p.txt", ".", none⟩
      ⟨fun _ => false, fun _ => true, fun _ => "", fun _ => ""⟩).exitCode ≠ 0 :=
  claim_C7_validation_atomic _ _ (Or.inl (Or.inl rfl))

/-- Claim C9 counterexample: the empty mapping (which satisfies all the
claim's hypotheses vacuously) does not round-trip: saving writes a lone
newline, and re-parsing that file hits a line without a colon, raising
`ValueError` instead of returning the empty mapping. -/
theorem claim_C9_counterexample :
    saveParams [] = "\n" ∧
    parse_parameters_file (pylines (saveParams [])) ∅ = ParseResult.valueError ∧
    parse_parameters_file (pylines (saveParams [])) ∅ ≠ ParseResult.ok [] := by
  refine ⟨rfl, by decide, by decide⟩

/-- Claim C9 (amended): for every NON-EMPTY mapping whose keys exclude
the reserved names, whose keys contain no colon, and whose keys and
values contain no newline and no leading or trailing whitespace, the
save-parameters write followed by `parse_parameters_file` returns
exactly the original mapping (the empty mapping instead produces a
blank line whose re-parse fails, per the counterexample). -/
theorem claim_C9_roundtrip (d : Dict) (hne : d ≠ [])
    (hkeys : (d.map Prod.fst).Nodup)
    (hres : ∀ p ∈ d, p.1 ≠ "job_id" ∧ p.1 ≠ "samples_fp")
    (hcolon : ∀ p ∈ d, ':' ∉ p.1.data)
    (hnl : ∀ p ∈ d, '\n' ∉ p.1.data ∧ '\n' ∉ p.2.data)
    (hws : ∀ p ∈ d, pystrip p.1 = p.1 ∧ pystrip p.2 = p.2) :
    parseLines (pylines (saveParams d)) = some d ∧
    ∀ P : Finset String, (P \ keysOf d) \ reservedNames = ∅ →
      parse_parameters_file (pylines (saveParams d)) P = ParseResult.ok d := by
  have hfilter : d.filter (fun p => ¬p.1 ∈ skipParams) = d := by
    rw [List.filter_eq_self]
    intro p hp
    simp only [skipParams, List.mem_cons, List.not_mem_nil, or_false,
      decide_eq_true_eq, not_or]
    exact ⟨(hres p hp).2, (hres p hp).1⟩
  have hlines : pylines (saveParams d) = d.map (fun p => p.1 ++ ": " ++ p.2) := by
    unfold saveParams
    rw [hfilter]
    apply pylines_pyJoinNL
    · simpa using hne
    · intro s hs
      rcases List.mem_map.mp hs with ⟨p, hp, rfl⟩
      have hdata : (p.1 ++ ": " ++ p.2).data = p.1.data ++ ':' :: ' ' :: p.2.data := by
        rw [String.data_append, String.data_append, List.append_assoc]
        rfl
      rw [hdata]
      simp only [List.mem_append, List.mem_cons, not_or]
      refine ⟨(hnl p hp).1, ?_, ?_, (hnl p hp).2⟩ <;> decide
  have hparse : parseLines (pylines (saveParams d)) = some d := by
    rw [hlines]
    unfold parseLines
    have h := parseLinesAux_renders d []
      (fun p hp => ⟨hcolon p hp, (hws p hp).1, (hws p hp).2⟩)
      (by simpa using hkeys)
    simpa using h
  refine ⟨hparse, ?_⟩
  intro P hP
  rw [ppf_of_parseLines _ P d hparse, if_neg (by rw [hP]; simp)]

theorem claim_C9_witness :
    parseLines (pylines (saveParams [("a", "1")])) = some [("a", "1")] ∧
    parse_parameters_file (pylines (saveParams [("a", "1")])) {"a"} =
      ParseResult.ok [("a", "1")] := by
  have h := claim_C9_roundtrip [("a", "1")] (by decide) (by decide)
    (by decide) (by decide) (by decide) (by decide)
  exact ⟨h.1, h.2 {"a"} (by decide)⟩

end ClusterDistribute
